import Mathlib

/-! Verification of the response-parsing and prompt-construction layer of the
skill-adaptive coding assistant (src/parser.py, src/prompts.py, src/utils.py).

Strings are modelled as `List Char`.  The Python regular expressions used by
`ResponseParser` are embedded as executable scanners that reproduce the
leftmost, non-overlapping matching of `re.findall` / `re.sub`:

* `code_pattern`  (three backticks, an optional greedy word run, an optional
  newline, a lazy body, an optional newline, three closing backticks) is
  embedded by `tryCode` / `findClose`;
* the newline-collapse pattern (three or more newlines become two) is
  embedded by `collapseNewlines`;
* the fence-fix pattern (three backticks, a mandatory word run, then two or
  more newlines, rewritten to keep a single newline) is embedded by `tryFix`
  / `fixFences`.

Character classes are modelled over ASCII: a word character is an ASCII
letter, digit or underscore, and whitespace is the ASCII whitespace set used
by Python's `str.strip`.
-/

/-- Convert a Lean string literal to the `List Char` representation. -/
def toL (s : String) : List Char := s.toList

/-- ASCII whitespace as stripped by Python's `str.strip`. -/
def isPyWs (c : Char) : Bool :=
  c == ' ' || c == '\t' || c == '\n' || c == '\r' || c == '\x0b' || c == '\x0c'

/-- ASCII word character, the `\w` class of the source patterns. -/
def isWordChar (c : Char) : Bool := c.isAlphanum || c == '_'

/-- Python `str.lower` on ASCII text. -/
def pyLower (s : List Char) : List Char := s.map Char.toLower

/-- `leadsWith pat s` holds when `pat` is an initial segment of `s`. -/
def leadsWith : List Char → List Char → Bool
  | [], _ => true
  | _ :: _, [] => false
  | p :: ps, c :: cs => p == c && leadsWith ps cs

/-- `occursIn pat s` holds when `pat` occurs contiguously inside `s`. -/
def occursIn (pat : List Char) : List Char → Bool
  | [] => leadsWith pat []
  | c :: cs => leadsWith pat (c :: cs) || occursIn pat cs

/-- Number of positions of `s` at which `pat` starts (overlaps counted). -/
def startCount (pat : List Char) : List Char → Nat
  | [] => if leadsWith pat [] then 1 else 0
  | c :: cs => (if leadsWith pat (c :: cs) then 1 else 0) + startCount pat cs

/-- Drop leading Python whitespace. -/
def trimStartW (s : List Char) : List Char := s.dropWhile isPyWs

/-- Drop trailing Python whitespace. -/
def trimEndW : List Char → List Char
  | [] => []
  | c :: cs =>
    match trimEndW cs with
    | [] => if isPyWs c then [] else [c]
    | d :: r => c :: d :: r

/-- Python `str.strip`. -/
def pyStrip (s : List Char) : List Char := trimEndW (trimStartW s)

/-- Python `str.split` on the exact separator `"\n\n"` (leftmost,
non-overlapping occurrences). -/
def splitParas : List Char → List (List Char)
  | [] => [[]]
  | '\n' :: '\n' :: rest => [] :: splitParas rest
  | c :: cs =>
    match splitParas cs with
    | [] => [[c]]
    | p :: ps => (c :: p) :: ps

/-- `[p.strip() for p in s.split('\n\n') if p.strip()]`. -/
def parasOf (s : List Char) : List (List Char) :=
  ((splitParas s).map pyStrip).filter (fun p => !p.isEmpty)

/-- One step of `re.sub(r'\n{3,}', '\n\n', ...)`: `collapseAux k s` processes
`s` while `k` pending newlines have been read; every maximal newline run of
length `n` is emitted as `min n 2` newlines. -/
def collapseAux : Nat → List Char → List Char
  | k, [] => List.replicate (min k 2) '\n'
  | k, c :: cs =>
    if c == '\n' then collapseAux (k + 1) cs
    else List.replicate (min k 2) '\n' ++ c :: collapseAux 0 cs

/-- `re.sub(r'\n{3,}', '\n\n', s)`. -/
def collapseNewlines (s : List Char) : List Char := collapseAux 0 s

/-- Head match of the fence-fix pattern: three backticks, a non-empty greedy
word run, then at least two newlines.  On success, returns the word run and
the remainder of the text after the (greedily consumed) newline run. -/
def tryFix (c : Char) (cs : List Char) : Option (List Char × List Char) :=
  if c == '`' && leadsWith ['`', '`'] cs then
    let r0 := cs.drop 2
    let w := r0.takeWhile isWordChar
    let r1 := r0.dropWhile isWordChar
    if w.isEmpty then none
    else if leadsWith ['\n', '\n'] r1 then
      some (w, r1.dropWhile (fun a => a == '\n'))
    else none
  else none

/-- Fuelled scanner for `re.sub(r'```(\w+)\n\n+', r'```\1\n', s)`. -/
def fixAux : Nat → List Char → List Char
  | _, [] => []
  | 0, c :: cs => c :: cs
  | n + 1, c :: cs =>
    match tryFix c cs with
    | some (w, rest) => '`' :: '`' :: '`' :: (w ++ '\n' :: fixAux n rest)
    | none => c :: fixAux n cs

/-- `re.sub(r'```(\w+)\n\n+', r'```\1\n', s)`. -/
def fixFences (s : List Char) : List Char := fixAux s.length s

/-- Search for the lazy body and closing fence of `code_pattern`: at each
position the engine first tries to consume one newline followed by the three
closing backticks, then the three backticks directly, before growing the
body.  Returns body and remainder after the match. -/
def findClose : List Char → Option (List Char × List Char)
  | [] => none
  | c :: cs =>
    if c == '\n' && leadsWith ['`', '`', '`'] cs then some ([], cs.drop 3)
    else if c == '`' && leadsWith ['`', '`'] cs then some ([], cs.drop 2)
    else (findClose cs).map (fun pr => (c :: pr.1, pr.2))

/-- Head match of `code_pattern` (`` ```(?:\w+)?\n?(.*?)\n?``` `` with
`re.DOTALL`): three opening backticks, greedy optional word run, greedy
optional newline, then `findClose`.  Returns the captured body and the
remainder of the text after the whole match. -/
def tryCode (c : Char) (cs : List Char) : Option (List Char × List Char) :=
  if c == '`' && leadsWith ['`', '`'] cs then
    let r1 := (cs.drop 2).dropWhile isWordChar
    findClose (if r1.head? == some '\n' then r1.tail else r1)
  else none

/-- Fuelled scanner collecting every `code_pattern` capture, as
`re.findall(code_pattern, s, re.DOTALL | re.IGNORECASE)` does. -/
def exAux : Nat → List Char → List (List Char)
  | _, [] => []
  | 0, _ :: _ => []
  | n + 1, c :: cs =>
    match tryCode c cs with
    | some (content, rest) => content :: exAux n rest
    | none => exAux n cs

/-- `re.findall(code_pattern, s, re.DOTALL | re.IGNORECASE)`. -/
def extractBlocks (s : List Char) : List (List Char) := exAux s.length s

/-- Fuelled scanner replacing every `code_pattern` match by `repl`, as
`re.sub(code_pattern, repl, s, flags=re.DOTALL | re.IGNORECASE)` does. -/
def repAux (repl : List Char) : Nat → List Char → List Char
  | _, [] => []
  | 0, c :: cs => c :: cs
  | n + 1, c :: cs =>
    match tryCode c cs with
    | some (_, rest) => repl ++ repAux repl n rest
    | none => c :: repAux repl n cs

/-- `re.sub(code_pattern, repl, s, flags=re.DOTALL | re.IGNORECASE)`. -/
def replaceBlocks (repl s : List Char) : List Char := repAux repl s.length s

/-- The triple-backtick fence marker. -/
def fenceMarker : List Char := ['`', '`', '`']

/-- Three consecutive newlines, the trigger of the newline collapse. -/
def nl3 : List Char := ['\n', '\n', '\n']

/-- Fence-fix match attempt at the head of a text. -/
def headFixMatch : List Char → Option (List Char × List Char)
  | [] => none
  | c :: cs => tryFix c cs

/-- Whether the fence-fix pattern matches anywhere in the text. -/
def hasFix : List Char → Bool
  | [] => false
  | c :: cs => (tryFix c cs).isSome || hasFix cs

/-- Result record of `ResponseParser.parse_code_generation`. -/
structure CodeGenResult where
  code : List Char
  explanation : List Char
  has_code : Bool
  has_explanation : Bool

/-- Python `max(xs, key=len)` starting from accumulator `acc`: a later
element replaces the accumulator only when strictly longer, so the first
element of maximal length wins. -/
def pyMaxAux : List Char → List (List Char) → List Char
  | acc, [] => acc
  | acc, x :: xs => pyMaxAux (if acc.length < x.length then x else acc) xs

/-- `ResponseParser.parse_code_generation` (src/parser.py lines 23–46). -/
def parse_code_generation (response : List Char) : CodeGenResult :=
  let code_matches := extractBlocks response
  let main_code :=
    match code_matches with
    | [] => []
    | b :: bs => pyStrip (pyMaxAux b bs)
  let explanation := pyStrip (replaceBlocks [] response)
  { code := main_code, explanation := explanation,
    has_code := !main_code.isEmpty, has_explanation := !explanation.isEmpty }

/-- Result record of `ResponseParser.parse_explanation`. -/
structure ExplanationResult where
  overview : List Char
  details : List (List Char)
  full_explanation : List Char
  paragraph_count : Nat

/-- The heading keywords of `ResponseParser.explanation_sections`. -/
def explanation_sections : List (List Char) :=
  [toL "explanation", toL "overview", toL "summary",
   toL "what this code does", toL "how it works"]

/-- `any(section in paragraph.lower() for section in explanation_sections)`. -/
def hasSectionKeyword (p : List Char) : Bool :=
  explanation_sections.any (fun k => occursIn k (pyLower p))

/-- The paragraph loop of `parse_explanation`: the first keyword paragraph
becomes the overview, non-keyword paragraphs are appended to the details,
and later keyword paragraphs leave both accumulators unchanged. -/
def classifyParas : List (List Char) → List Char → List (List Char) →
    List Char × List (List Char)
  | [], ov, ds => (ov, ds)
  | p :: ps, ov, ds =>
    if hasSectionKeyword p then
      if ov.isEmpty then classifyParas ps p ds else classifyParas ps ov ds
    else classifyParas ps ov (ds ++ [p])

/-- `ResponseParser.parse_explanation` (src/parser.py lines 48–75). -/
def parse_explanation (response : List Char) : ExplanationResult :=
  let paragraphs := parasOf response
  let c := classifyParas paragraphs [] []
  { overview := c.1, details := c.2,
    full_explanation := response, paragraph_count := paragraphs.length }

/-- Result record of `ResponseParser.parse_debug_response`. -/
structure DebugResult where
  problem_description : List Char
  corrected_code : List Char
  full_explanation : List Char
  has_corrected_code : Bool
  solution_steps : List (List Char)

/-- The literal replacement `'\n[CODE BLOCK REMOVED]\n'` of
`parse_debug_response`. -/
def codeBlockPlaceholder : List Char := toL "\n[CODE BLOCK REMOVED]\n"

/-- `ResponseParser.parse_debug_response` (src/parser.py lines 77–104). -/
def parse_debug_response (response : List Char) : DebugResult :=
  let code_matches := extractBlocks response
  let corrected_code :=
    match code_matches with
    | [] => []
    | b :: bs => pyStrip ((b :: bs).getLastD [])
  let explanation := pyStrip (replaceBlocks codeBlockPlaceholder response)
  let paragraphs := parasOf explanation
  { problem_description := paragraphs.headD [],
    corrected_code := corrected_code,
    full_explanation := explanation,
    has_corrected_code := !corrected_code.isEmpty,
    solution_steps := paragraphs }

/-- `ResponseParser.clean_response` (src/parser.py lines 106–121): collapse
newline runs, strip, then fix `` ```lang `` fences followed by blank lines. -/
def clean_response (response : List Char) : List Char :=
  fixFences (pyStrip (collapseNewlines response))

/-- The interpolated base prompt of `get_code_generation_prompt`
(src/prompts.py lines 13–21). -/
def genBasePrompt (task language skill_level : List Char) : List Char :=
  toL "\nYou are a " ++ pyLower skill_level ++
  toL "-level programming tutor. \nGenerate " ++ language ++
  toL " code for: \"" ++ task ++
  toL "\"\n\nIMPORTANT RULES:\n- Write code appropriate for " ++ skill_level ++
  toL " level programmers\n- Include comments suitable for this skill level\n- Use coding style typical for " ++
  skill_level ++ toL " developers\n"

/-- The Beginner instruction block (src/prompts.py lines 25–33). -/
def beginnerBlock : List Char :=
  toL "\nBEGINNER REQUIREMENTS:\n- Use very simple, readable variable names\n- Add comments explaining EVERY line of code\n- Break complex operations into multiple simple steps\n- Use basic language features only\n- Include example usage\n- Explain what each part does in plain English\n"

/-- The Intermediate instruction block (src/prompts.py lines 36–44). -/
def intermediateBlock : List Char :=
  toL "\nINTERMEDIATE REQUIREMENTS:\n- Use clean, meaningful variable and function names\n- Add comments for complex logic only\n- Follow standard coding conventions\n- Use appropriate data structures\n- Include error handling where relevant\n- Write modular, reusable code\n"

/-- The Advanced instruction block (src/prompts.py lines 47–55). -/
def advancedBlock : List Char :=
  toL "\nADVANCED REQUIREMENTS:\n- Write optimized, efficient code\n- Use advanced language features appropriately\n- Minimal but meaningful comments\n- Consider edge cases and performance\n- Apply relevant design patterns\n- Focus on maintainability and scalability\n"

/-- `get_code_generation_prompt` (src/prompts.py lines 6–57): base prompt
followed by the block selected by an if / elif / else chain on the skill
level, whose else branch is the Advanced block. -/
def get_code_generation_prompt (task language skill_level : List Char) :
    List Char :=
  genBasePrompt task language skill_level ++
    (if skill_level = toL "Beginner" then beginnerBlock
     else if skill_level = toL "Intermediate" then intermediateBlock
     else advancedBlock)

/-- `get_supported_languages` (src/utils.py lines 22–27). -/
def get_supported_languages : List (List Char) :=
  [toL "Java", toL "Python", toL "JavaScript", toL "C++"]

/-- The three recognised skill levels of `validate_user_input`. -/
def skillLevels : List (List Char) :=
  [toL "Beginner", toL "Intermediate", toL "Advanced"]

/-- Error message for an empty task. -/
def errTaskEmpty : List Char := toL "Task description cannot be empty"

/-- Error message for a too-short task. -/
def errTaskShort : List Char :=
  toL "Task description too short (minimum 5 characters)"

/-- Error message for an unsupported language. -/
def errLanguage : List Char := toL "Unsupported programming language"

/-- Error message for an invalid skill level. -/
def errSkill : List Char := toL "Invalid skill level"

/-- Result record of `validate_user_input`. -/
structure ValidationResult where
  is_valid : Bool
  errors : List (List Char)

/-- `validate_user_input` (src/utils.py lines 36–58). -/
def validate_user_input (task language skill_level : List Char) :
    ValidationResult :=
  let errors :=
    (if (pyStrip task).isEmpty then [errTaskEmpty] else []) ++
    (if (pyStrip task).length < 5 then [errTaskShort] else []) ++
    (if language ∈ get_supported_languages then [] else [errLanguage]) ++
    (if skill_level ∈ skillLevels then [] else [errSkill])
  { is_valid := errors.isEmpty, errors := errors }

/-! Section: Generic lemmas about the string primitives -/

theorem leadsWith_append {pat l : List Char} (h : leadsWith pat l = true)
    (m : List Char) : leadsWith pat (l ++ m) = true := by
  induction pat generalizing l with
  | nil => simp [leadsWith]
  | cons p ps ih =>
    cases l with
    | nil => simp [leadsWith] at h
    | cons c cs =>
      simp only [leadsWith, Bool.and_eq_true] at h
      simpa [leadsWith, h.1] using ih h.2

theorem occursIn_of_leadsWith {pat s : List Char}
    (h : leadsWith pat s = true) : occursIn pat s = true := by
  cases s <;> simp [occursIn, h]

theorem occursIn_cons {pat cs : List Char} (c : Char)
    (h : occursIn pat cs = true) : occursIn pat (c :: cs) = true := by
  simp [occursIn, h]

theorem occursIn_append_right {pat r : List Char} (l : List Char)
    (h : occursIn pat r = true) : occursIn pat (l ++ r) = true := by
  induction l with
  | nil => simpa using h
  | cons c cs ih => exact occursIn_cons c ih

theorem occursIn_append_left {pat l : List Char}
    (h : occursIn pat l = true) (m : List Char) :
    occursIn pat (l ++ m) = true := by
  induction l with
  | nil =>
    cases pat with
    | nil => exact occursIn_of_leadsWith rfl
    | cons p ps => simp [occursIn, leadsWith] at h
  | cons c cs ih =>
    simp only [occursIn, Bool.or_eq_true] at h
    rcases h with h | h
    · exact occursIn_of_leadsWith (leadsWith_append h m)
    · exact occursIn_cons c (ih h)

theorem occursIn_dropWhile {pat : List Char} (p : Char → Bool)
    (l : List Char) (h : occursIn pat (l.dropWhile p) = true) :
    occursIn pat l = true := by
  rw [← List.takeWhile_append_dropWhile p l]
  exact occursIn_append_right _ h

theorem occursIn_drop {pat : List Char} (n : Nat) (l : List Char)
    (h : occursIn pat (l.drop n) = true) : occursIn pat l = true := by
  rw [← List.take_append_drop n l]
  exact occursIn_append_right _ h

theorem occursIn_tail {pat : List Char} (l : List Char)
    (h : occursIn pat l.tail = true) : occursIn pat l = true := by
  cases l with
  | nil => simpa using h
  | cons c cs => exact occursIn_cons c h

theorem startCount_pos {pat s : List Char} (h : occursIn pat s = true) :
    1 ≤ startCount pat s := by
  induction s with
  | nil => simp only [occursIn] at h; simp [startCount, h]
  | cons c cs ih =>
    simp only [occursIn, Bool.or_eq_true] at h
    rcases h with h | h
    · simp [startCount, h]
    · have := ih h
      simp only [startCount]
      omega

theorem startCount_cons_le (pat : List Char) (c : Char) (cs : List Char) :
    startCount pat cs ≤ startCount pat (c :: cs) := by
  simp only [startCount]
  omega

theorem trimEndW_pre : ∀ l : List Char, ∃ m, l = trimEndW l ++ m := by
  intro l
  induction l with
  | nil => exact ⟨[], rfl⟩
  | cons c cs ih =>
    obtain ⟨m0, hm⟩ := ih
    cases h : trimEndW cs with
    | nil =>
      rw [h] at hm
      by_cases hc : isPyWs c = true
      · exact ⟨c :: cs, by simp [trimEndW, h, hc]⟩
      · exact ⟨cs, by simp [trimEndW, h, hc]⟩
    | cons d r =>
      refine ⟨m0, ?_⟩
      simp only [trimEndW, h]
      rw [h] at hm
      simpa using congrArg (c :: ·) hm

theorem occursIn_trimEndW {pat : List Char} (l : List Char)
    (h : occursIn pat (trimEndW l) = true) : occursIn pat l = true := by
  obtain ⟨m, hm⟩ := trimEndW_pre l
  rw [hm]
  exact occursIn_append_left h m

theorem occursIn_pyStrip {pat : List Char} (s : List Char)
    (h : occursIn pat (pyStrip s) = true) : occursIn pat s = true :=
  occursIn_dropWhile isPyWs s (occursIn_trimEndW _ h)

theorem dropWhile_head_false {p : Char → Bool} :
    ∀ {l : List Char} {c : Char} {t : List Char},
      l.dropWhile p = c :: t → p c = false := by
  intro l
  induction l with
  | nil => intro c t h; simp at h
  | cons a as ih =>
    intro c t h
    by_cases ha : p a = true
    · rw [List.dropWhile_cons_of_pos ha] at h
      exact ih h
    · rw [List.dropWhile_cons_of_neg (by simpa using ha)] at h
      cases h
      simpa using ha

theorem length_dropWhile_le (p : Char → Bool) (l : List Char) :
    (l.dropWhile p).length ≤ l.length := by
  induction l with
  | nil => simp
  | cons a as ih =>
    by_cases ha : p a = true
    · rw [List.dropWhile_cons_of_pos ha]; exact Nat.le_trans ih (by simp)
    · rw [List.dropWhile_cons_of_neg (by simpa using ha)]

theorem filter_length_split (l : List (List Char)) (p : List Char → Bool) :
    (l.filter (fun a => !p a)).length + (l.filter p).length = l.length := by
  induction l with
  | nil => simp
  | cons a as ih =>
    by_cases ha : p a = true <;> simp [List.filter_cons, ha, ← ih] <;> omega

/-! Section: Unfolding equations for the fuelled scanners -/

theorem findClose_rest_le :
    ∀ {z : List Char} {pr : List Char × List Char},
      findClose z = some pr → pr.2.length ≤ z.length := by
  intro z
  induction z with
  | nil => intro pr h; simp [findClose] at h
  | cons c cs ih =>
    intro pr h
    simp only [findClose] at h
    split at h
    · cases h; simp only [List.length_drop, List.length_cons]; omega
    · split at h
      · cases h; simp only [List.length_drop, List.length_cons]; omega
      · rcases hfc : findClose cs with _ | pr'
        · rw [hfc] at h; simp at h
        · rw [hfc] at h
          simp only [Option.map_some'] at h
          cases h
          have := ih hfc
          simp only [List.length_cons]
          omega

theorem tryCode_rest_le {c : Char} {cs : List Char}
    {pr : List Char × List Char} (h : tryCode c cs = some pr) :
    pr.2.length ≤ cs.length := by
  simp only [tryCode] at h
  split at h
  · have h1 := findClose_rest_le h
    have h2 : (((cs.drop 2).dropWhile isWordChar).tail).length ≤
        ((cs.drop 2).dropWhile isWordChar).length := by
      simp [List.length_tail]
    have h3 : ((cs.drop 2).dropWhile isWordChar).length ≤ (cs.drop 2).length :=
      length_dropWhile_le _ _
    have h4 : (cs.drop 2).length ≤ cs.length := by
      simp [List.length_drop]
    split at h1 <;> omega
  · simp at h

theorem tryFix_rest_le {c : Char} {cs : List Char}
    {pr : List Char × List Char} (h : tryFix c cs = some pr) :
    pr.2.length ≤ cs.length := by
  simp only [tryFix] at h
  split at h
  · split at h
    · simp at h
    · split at h
      · cases h
        have h1 : (((cs.drop 2).dropWhile isWordChar).dropWhile
            (fun a => a == '\n')).length ≤
            ((cs.drop 2).dropWhile isWordChar).length :=
          length_dropWhile_le _ _
        have h2 : ((cs.drop 2).dropWhile isWordChar).length ≤
            (cs.drop 2).length := length_dropWhile_le _ _
        have h3 : (cs.drop 2).length ≤ cs.length := by
          simp [List.length_drop]
        simpa using by omega
      · simp at h
  · simp at h

theorem exAux_congr :
    ∀ (n : Nat) (s : List Char) (m : Nat),
      s.length ≤ n → s.length ≤ m → exAux n s = exAux m s := by
  intro n
  induction n with
  | zero =>
    intro s m hn _
    have : s = [] := List.length_eq_zero.mp (Nat.le_zero.mp hn)
    subst this
    cases m <;> rfl
  | succ n ih =>
    intro s m hn hm
    cases s with
    | nil => cases m <;> rfl
    | cons c cs =>
      cases m with
      | zero => simp at hm
      | succ m' =>
        simp only [List.length_cons, Nat.succ_le_succ_iff] at hn hm
        rcases h : tryCode c cs with _ | ⟨content, rest⟩ <;> simp [exAux, h]
        · exact ih cs m' hn hm
        · have hr : rest.length ≤ cs.length := tryCode_rest_le h
          exact ih rest m' (Nat.le_trans hr hn) (Nat.le_trans hr hm)

theorem extractBlocks_nil : extractBlocks [] = [] := rfl

theorem extractBlocks_cons_none {c : Char} {cs : List Char}
    (h : tryCode c cs = none) :
    extractBlocks (c :: cs) = extractBlocks cs := by
  simp [extractBlocks, exAux, h]

theorem extractBlocks_cons_some {c : Char} {cs content rest : List Char}
    (h : tryCode c cs = some (content, rest)) :
    extractBlocks (c :: cs) = content :: extractBlocks rest := by
  simp [extractBlocks, exAux, h]
  exact exAux_congr cs.length rest rest.length
    (tryCode_rest_le h) (Nat.le_refl _)

theorem repAux_congr (repl : List Char) :
    ∀ (n : Nat) (s : List Char) (m : Nat),
      s.length ≤ n → s.length ≤ m → repAux repl n s = repAux repl m s := by
  intro n
  induction n with
  | zero =>
    intro s m hn _
    have : s = [] := List.length_eq_zero.mp (Nat.le_zero.mp hn)
    subst this
    cases m <;> rfl
  | succ n ih =>
    intro s m hn hm
    cases s with
    | nil => cases m <;> rfl
    | cons c cs =>
      cases m with
      | zero => simp at hm
      | succ m' =>
        simp only [List.length_cons, Nat.succ_le_succ_iff] at hn hm
        rcases h : tryCode c cs with _ | ⟨content, rest⟩ <;> simp [repAux, h]
        · exact ih cs m' hn hm
        · have hr : rest.length ≤ cs.length := tryCode_rest_le h
          exact ih rest m' (Nat.le_trans hr hn) (Nat.le_trans hr hm)

theorem replaceBlocks_nil (repl : List Char) : replaceBlocks repl [] = [] :=
  rfl

theorem replaceBlocks_cons_none {c : Char} {cs : List Char}
    (repl : List Char) (h : tryCode c cs = none) :
    replaceBlocks repl (c :: cs) = c :: replaceBlocks repl cs := by
  simp [replaceBlocks, repAux, h]

theorem replaceBlocks_cons_some {c : Char} {cs content rest : List Char}
    (repl : List Char) (h : tryCode c cs = some (content, rest)) :
    replaceBlocks repl (c :: cs) = repl ++ replaceBlocks repl rest := by
  simp [replaceBlocks, repAux, h]
  exact repAux_congr repl cs.length rest rest.length
    (tryCode_rest_le h) (Nat.le_refl _)

theorem fixAux_congr :
    ∀ (n : Nat) (s : List Char) (m : Nat),
      s.length ≤ n → s.length ≤ m → fixAux n s = fixAux m s := by
  intro n
  induction n with
  | zero =>
    intro s m hn _
    have : s = [] := List.length_eq_zero.mp (Nat.le_zero.mp hn)
    subst this
    cases m <;> rfl
  | succ n ih =>
    intro s m hn hm
    cases s with
    | nil => cases m <;> rfl
    | cons c cs =>
      cases m with
      | zero => simp at hm
      | succ m' =>
        simp only [List.length_cons, Nat.succ_le_succ_iff] at hn hm
        rcases h : tryFix c cs with _ | ⟨w, rest⟩ <;> simp [fixAux, h]
        · exact ih cs m' hn hm
        · have hr : rest.length ≤ cs.length := tryFix_rest_le h
          exact ih rest m' (Nat.le_trans hr hn) (Nat.le_trans hr hm)

theorem fixFences_nil : fixFences [] = [] := rfl

theorem fixFences_cons_none {c : Char} {cs : List Char}
    (h : tryFix c cs = none) : fixFences (c :: cs) = c :: fixFences cs := by
  simp [fixFences, fixAux, h]

theorem fixFences_cons_some {c : Char} {cs w rest : List Char}
    (h : tryFix c cs = some (w, rest)) :
    fixFences (c :: cs) = '`' :: '`' :: '`' :: (w ++ '\n' :: fixFences rest) := by
  simp [fixFences, fixAux, h]
  exact fixAux_congr cs.length rest rest.length
    (tryFix_rest_le h) (Nat.le_refl _)

/-! Section: The paragraph classification of `parse_explanation` -/

theorem classifyParas_spec :
    ∀ (ps : List (List Char)) (ov : List Char) (ds : List (List Char)),
      (∀ p ∈ ps, p ≠ []) →
      classifyParas ps ov ds =
        ((if ov.isEmpty then (ps.filter hasSectionKeyword).headD ov else ov),
         ds ++ ps.filter (fun p => !hasSectionKeyword p)) := by
  intro ps
  induction ps with
  | nil => intro ov ds _; simp [classifyParas]
  | cons p ps ih =>
    intro ov ds h
    have hp : p ≠ [] := h p (by simp)
    have hps : ∀ q ∈ ps, q ≠ [] := fun q hq => h q (by simp [hq])
    have hpE : p.isEmpty = false := by
      cases p with
      | nil => exact absurd rfl hp
      | cons a as => rfl
    by_cases hk : hasSectionKeyword p = true
    · by_cases ho : ov.isEmpty = true
      · have hov : ov = [] := by
          cases ov with
          | nil => rfl
          | cons a as => simp [List.isEmpty] at ho
        subst hov
        simp only [classifyParas, hk, ho, if_true]
        rw [ih p ds hps]
        simp [hpE, List.filter_cons, hk]
      · simp only [classifyParas, hk, ho, if_true, if_false]
        rw [ih ov ds hps]
        simp [ho, List.filter_cons, hk]
    · have hk' : hasSectionKeyword p = false := by
        cases hsk : hasSectionKeyword p
        · rfl
        · exact absurd hsk hk
      simp only [classifyParas, hk']
      rw [ih ov (ds ++ [p]) hps]
      simp [List.filter_cons, hk']

theorem parasOf_ne_nil (s : List Char) : ∀ p ∈ parasOf s, p ≠ [] := by
  intro p hp
  simp only [parasOf, List.mem_filter] at hp
  intro e
  subst e
  simp [List.isEmpty] at hp

/-- Claim C1 (amended): `parse_explanation` classifies the paragraphs of the
input so that the overview is the first keyword-bearing paragraph (empty if
none), the details are exactly the paragraphs without a keyword, in order,
and `len(details) + k = paragraphCount` where `k` is the number of
keyword-bearing paragraphs — every keyword paragraph after the first is
dropped, so the claim's equation `len(details) + (1 if overview else 0) =
paragraphCount` holds exactly when at most one paragraph bears a keyword. -/
theorem C1_parse_explanation_partition (s : List Char) :
    (parse_explanation s).overview =
      ((parasOf s).filter hasSectionKeyword).headD [] ∧
    (parse_explanation s).details =
      (parasOf s).filter (fun p => !hasSectionKeyword p) ∧
    (parse_explanation s).details.length +
      ((parasOf s).filter hasSectionKeyword).length =
      (parse_explanation s).paragraph_count := by
  have h := classifyParas_spec (parasOf s) [] [] (parasOf_ne_nil s)
  have h1 : (parse_explanation s).overview =
      ((parasOf s).filter hasSectionKeyword).headD [] := by
    simp [parse_explanation, h]
  have h2 : (parse_explanation s).details =
      (parasOf s).filter (fun p => !hasSectionKeyword p) := by
    simp [parse_explanation, h]
  refine ⟨h1, h2, ?_⟩
  have h3 : (parse_explanation s).paragraph_count = (parasOf s).length := by
    simp [parse_explanation]
  rw [h2, h3]
  exact filter_length_split (parasOf s) hasSectionKeyword

/-- Claim C1 fails as stated: on `"Overview\n\nSummary"` both paragraphs
bear a heading keyword, the second is dropped, and
`len(details) + (1 if overview else 0) = 1 ≠ 2 = paragraphCount`. -/
theorem C1_counterexample :
    ¬ ((parse_explanation (toL "Overview\n\nSummary")).details.length +
        (if (parse_explanation (toL "Overview\n\nSummary")).overview = []
          then 0 else 1) =
        (parse_explanation (toL "Overview\n\nSummary")).paragraph_count) := by
  decide

/-- Claim C3: with at least one fenced block, `parse_debug_response` takes
the trimmed last block as corrected code, replaces every block by the
literal placeholder and trims to get the full explanation, splits that
replaced text into trimmed non-empty paragraphs as the solution steps, and
takes the first such paragraph (or `""`) as the problem description. -/
theorem C3_parse_debug_structure (s : List Char)
    (h : extractBlocks s ≠ []) :
    (parse_debug_response s).corrected_code =
      pyStrip ((extractBlocks s).getLastD []) ∧
    (parse_debug_response s).full_explanation =
      pyStrip (replaceBlocks codeBlockPlaceholder s) ∧
    (parse_debug_response s).solution_steps =
      parasOf (pyStrip (replaceBlocks codeBlockPlaceholder s)) ∧
    (parse_debug_response s).problem_description =
      (parasOf (pyStrip (replaceBlocks codeBlockPlaceholder s))).headD [] := by
  rcases hb : extractBlocks s with _ | ⟨b, bs⟩
  · exact absurd hb h
  · simp [parse_debug_response, hb]

/-- Claim C3, witnessed on the end-to-end debugging example of the spec. -/
theorem C3_witness :
    (parse_debug_response (toL "The bug is a null check issue.\n\n```py\nif x = None:\n    pass\n```\n\nUse is None.")).corrected_code =
      pyStrip ((extractBlocks (toL "The bug is a null check issue.\n\n```py\nif x = None:\n    pass\n```\n\nUse is None.")).getLastD []) ∧
    (parse_debug_response (toL "The bug is a null check issue.\n\n```py\nif x = None:\n    pass\n```\n\nUse is None.")).full_explanation =
      pyStrip (replaceBlocks codeBlockPlaceholder (toL "The bug is a null check issue.\n\n```py\nif x = None:\n    pass\n```\n\nUse is None.")) ∧
    (parse_debug_response (toL "The bug is a null check issue.\n\n```py\nif x = None:\n    pass\n```\n\nUse is None.")).solution_steps =
      parasOf (pyStrip (replaceBlocks codeBlockPlaceholder (toL "The bug is a null check issue.\n\n```py\nif x = None:\n    pass\n```\n\nUse is None."))) ∧
    (parse_debug_response (toL "The bug is a null check issue.\n\n```py\nif x = None:\n    pass\n```\n\nUse is None.")).problem_description =
      (parasOf (pyStrip (replaceBlocks codeBlockPlaceholder (toL "The bug is a null check issue.\n\n```py\nif x = None:\n    pass\n```\n\nUse is None.")))).headD [] :=
  C3_parse_debug_structure
    (toL "The bug is a null check issue.\n\n```py\nif x = None:\n    pass\n```\n\nUse is None.")
    (by decide)

/-! Section: The longest-block selection of `parse_code_generation` -/

theorem pyMaxAux_spec :
    ∀ (xs : List (List Char)) (acc : List Char),
      ∃ pre suf,
        acc :: xs = pre ++ pyMaxAux acc xs :: suf ∧
        (∀ b ∈ acc :: xs, b.length ≤ (pyMaxAux acc xs).length) ∧
        (∀ b ∈ pre, b.length < (pyMaxAux acc xs).length) := by
  intro xs
  induction xs with
  | nil =>
    intro acc
    refine ⟨[], [], rfl, ?_, by simp⟩
    intro b hb
    simp only [List.mem_singleton] at hb
    subst hb
    simp [pyMaxAux]
  | cons x xs ih =>
    intro acc
    by_cases hlt : acc.length < x.length
    · obtain ⟨pre, suf, hd, hm, hs⟩ := ih x
      have hr : pyMaxAux acc (x :: xs) = pyMaxAux x xs := by
        simp [pyMaxAux, hlt]
      refine ⟨acc :: pre, suf, ?_, ?_, ?_⟩
      · rw [hr]; simpa using congrArg (acc :: ·) hd
      · intro b hb
        rw [hr]
        rcases List.mem_cons.mp hb with hb | hb
        · subst hb
          exact Nat.le_trans (Nat.le_of_lt hlt) (hm x (by simp))
        · exact hm b hb
      · intro b hb
        rw [hr]
        rcases List.mem_cons.mp hb with hb | hb
        · subst hb
          exact Nat.lt_of_lt_of_le hlt (hm x (by simp))
        · exact hs b hb
    · obtain ⟨pre, suf, hd, hm, hs⟩ := ih acc
      have hxa : x.length ≤ acc.length := Nat.le_of_not_lt hlt
      have hr : pyMaxAux acc (x :: xs) = pyMaxAux acc xs := by
        simp [pyMaxAux, hlt]
      cases pre with
      | nil =>
        simp only [List.nil_append] at hd
        injection hd with hacc hsuf
        refine ⟨[], x :: suf, ?_, ?_, by simp⟩
        · rw [hr, ← hacc, ← hsuf]; rfl
        · intro b hb
          rw [hr]
          rcases List.mem_cons.mp hb with hb | hb
          · subst hb; exact hm b (by simp)
          · rcases List.mem_cons.mp hb with hb | hb
            · subst hb
              exact Nat.le_trans hxa (hm acc (by simp))
            · exact hm b (by simp [hb])
      | cons a pre' =>
        simp only [List.cons_append] at hd
        injection hd with ha hxs
        subst ha
        have haccr : acc.length < (pyMaxAux acc xs).length :=
          hs acc (by simp)
        refine ⟨acc :: x :: pre', suf, ?_, ?_, ?_⟩
        · rw [hr]
          simp only [List.cons_append]
          rw [← hxs]
        · intro b hb
          rw [hr]
          rcases List.mem_cons.mp hb with hb | hb
          · subst hb; exact hm b (by simp)
          · rcases List.mem_cons.mp hb with hb | hb
            · subst hb
              exact Nat.le_trans hxa (hm acc (by simp))
            · exact hm b (by simp [hb])
        · intro b hb
          rw [hr]
          rcases List.mem_cons.mp hb with hb | hb
          · subst hb; exact haccr
          · rcases List.mem_cons.mp hb with hb | hb
            · subst hb; exact Nat.lt_of_le_of_lt hxa haccr
            · exact hs b (by simp [hb])

/-- Claim C4: with at least two fenced blocks, `parse_code_generation`
returns the trimmed content of a block of maximal character length, and
every block occurring before the selected one is strictly shorter — the
first-occurring block wins an exact length tie. -/
theorem C4_longest_block_selection (s : List Char)
    (h2 : 2 ≤ (extractBlocks s).length) :
    ∃ best pre suf,
      extractBlocks s = pre ++ best :: suf ∧
      (parse_code_generation s).code = pyStrip best ∧
      (∀ b ∈ extractBlocks s, b.length ≤ best.length) ∧
      (∀ b ∈ pre, b.length < best.length) := by
  rcases hb : extractBlocks s with _ | ⟨b, bs⟩
  · rw [hb] at h2; simp at h2
  · obtain ⟨pre, suf, hd, hm, hs⟩ := pyMaxAux_spec bs b
    refine ⟨pyMaxAux b bs, pre, suf, hd, ?_, ?_, hs⟩
    · simp [parse_code_generation, hb]
    · intro x hx
      exact hm x hx

/-- Claim C4, witnessed on an input whose second block is the longest. -/
theorem C4_witness :
    2 ≤ (extractBlocks (toL "```\nab\n```\n```\nlonger\n```")).length ∧
    ∃ best pre suf,
      extractBlocks (toL "```\nab\n```\n```\nlonger\n```") =
        pre ++ best :: suf ∧
      (parse_code_generation (toL "```\nab\n```\n```\nlonger\n```")).code =
        pyStrip best ∧
      (∀ b ∈ extractBlocks (toL "```\nab\n```\n```\nlonger\n```"),
        b.length ≤ best.length) ∧
      (∀ b ∈ pre, b.length < best.length) :=
  ⟨by decide,
   C4_longest_block_selection (toL "```\nab\n```\n```\nlonger\n```")
     (by decide)⟩

/-! Section: The skill-level branch of the generation prompt -/

theorem beginner_ne_intermediate : beginnerBlock ≠ intermediateBlock := by
  decide

theorem beginner_ne_advanced : beginnerBlock ≠ advancedBlock := by decide

theorem intermediate_ne_advanced : intermediateBlock ≠ advancedBlock := by
  decide

/-- Claim C5: for every task and language, `get_code_generation_prompt`
appends after the fixed base prompt the Beginner block exactly when the
skill level is `"Beginner"`, the Intermediate block exactly when it is
`"Intermediate"`, and the Advanced block for every other value. -/
theorem C5_skill_level_fallthrough (task language skill_level : List Char) :
    ((get_code_generation_prompt task language skill_level =
        genBasePrompt task language skill_level ++ beginnerBlock) ↔
      skill_level = toL "Beginner") ∧
    ((get_code_generation_prompt task language skill_level =
        genBasePrompt task language skill_level ++ intermediateBlock) ↔
      skill_level = toL "Intermediate") ∧
    (skill_level ≠ toL "Beginner" → skill_level ≠ toL "Intermediate" →
      get_code_generation_prompt task language skill_level =
        genBasePrompt task language skill_level ++ advancedBlock) := by
  unfold get_code_generation_prompt
  by_cases hb : skill_level = toL "Beginner"
  · simp only [hb, if_pos rfl]
    refine ⟨by simp, ?_, ?_⟩
    · constructor
      · intro hEq
        exact absurd (List.append_cancel_left hEq) beginner_ne_intermediate
      · intro hEq
        exact absurd hEq (by decide)
    · intro h1 _
      exact absurd rfl h1
  · by_cases hi : skill_level = toL "Intermediate"
    · rw [if_neg (by rw [hi]; decide), if_pos hi]
      refine ⟨?_, by simp [hi], ?_⟩
      · constructor
        · intro hEq
          exact absurd (List.append_cancel_left hEq).symm
            beginner_ne_intermediate
        · intro hEq
          rw [hi] at hEq
          exact absurd hEq (by decide)
      · intro _ h2
        exact absurd hi h2
    · rw [if_neg hb, if_neg hi]
      refine ⟨?_, ?_, fun _ _ => rfl⟩
      · constructor
        · intro hEq
          exact absurd (List.append_cancel_left hEq).symm beginner_ne_advanced
        · intro hEq
          exact absurd hEq hb
      · constructor
        · intro hEq
          exact absurd (List.append_cancel_left hEq).symm
            intermediate_ne_advanced
        · intro hEq
          exact absurd hEq hi

/-- Claim C5, witnessed on the empty skill level, which falls through to
the Advanced block. -/
theorem C5_witness :
    get_code_generation_prompt (toL "sort a list") (toL "Python") [] =
      genBasePrompt (toL "sort a list") (toL "Python") [] ++ advancedBlock :=
  (C5_skill_level_fallthrough (toL "sort a list") (toL "Python") []).2.2
    (by decide) (by decide)

/-! Section: Input validation -/

/-- Claim C10: `validate_user_input` accepts exactly when the trimmed task
has length at least five, the language is supported and the skill level is
recognised; the error list is empty exactly when the input is accepted; and
a task that trims to nothing contributes both the empty-task and the
too-short error messages. -/
theorem C10_validate_user_input (task language skill_level : List Char) :
    ((validate_user_input task language skill_level).is_valid = true ↔
      (5 ≤ (pyStrip task).length ∧ language ∈ get_supported_languages ∧
        skill_level ∈ skillLevels)) ∧
    ((validate_user_input task language skill_level).errors = [] ↔
      (validate_user_input task language skill_level).is_valid = true) ∧
    (pyStrip task = [] →
      errTaskEmpty ∈ (validate_user_input task language skill_level).errors ∧
      errTaskShort ∈ (validate_user_input task language skill_level).errors) := by
  unfold validate_user_input
  by_cases h1 : (pyStrip task).isEmpty = true
  · have h0 : (pyStrip task).length = 0 := by
      cases h : pyStrip task with
      | nil => rfl
      | cons a as => rw [h] at h1; simp [List.isEmpty] at h1
    simp only [h1, if_pos rfl, if_pos (by omega : (pyStrip task).length < 5)]
    refine ⟨by simp; omega, by simp, fun _ => by simp⟩
  · have h1' : (pyStrip task).isEmpty = false := by
      cases h : (pyStrip task).isEmpty
      · rfl
      · exact absurd h h1
    have hne : pyStrip task ≠ [] := by
      intro e
      rw [e] at h1'
      simp [List.isEmpty] at h1'
    have h5 : ¬ (pyStrip task).length = 0 := by
      intro e
      exact hne (List.length_eq_zero.mp e)
    simp only [h1', Bool.false_eq_true, if_false]
    by_cases h2 : (pyStrip task).length < 5
    · simp only [if_pos h2]
      refine ⟨by simp; omega, by simp, fun he => absurd he hne⟩
    · simp only [if_neg h2]
      by_cases h3 : language ∈ get_supported_languages
      · by_cases h4 : skill_level ∈ skillLevels
        · simp only [if_pos h3, if_pos h4]
          refine ⟨?_, by simp, fun he => absurd he hne⟩
          simp only [List.append_nil, List.isEmpty_nil]
          constructor
          · intro _
            exact ⟨by omega, h3, h4⟩
          · intro _
            trivial
        · simp only [if_pos h3, if_neg h4]
          refine ⟨by simp [h4], by simp, fun he => absurd he hne⟩
      · simp only [if_neg h3]
        refine ⟨by simp [h3], by simp, fun he => absurd he hne⟩

/-- Claim C10, witnessed on an all-whitespace task, which yields both the
empty-task and the too-short error messages. -/
theorem C10_witness :
    errTaskEmpty ∈
      (validate_user_input (toL "   ") (toL "Java") (toL "Beginner")).errors ∧
    errTaskShort ∈
      (validate_user_input (toL "   ") (toL "Java") (toL "Beginner")).errors :=
  (C10_validate_user_input (toL "   ") (toL "Java") (toL "Beginner")).2.2
    (by decide)

/-! Section: Unterminated fences yield no match -/

theorem findClose_some_occurs :
    ∀ {z : List Char} {pr : List Char × List Char},
      findClose z = some pr → occursIn fenceMarker z = true := by
  intro z
  induction z with
  | nil => intro pr h; simp [findClose] at h
  | cons c cs ih =>
    intro pr h
    simp only [findClose] at h
    split at h
    · rename_i hc
      simp only [Bool.and_eq_true, beq_iff_eq] at hc
      apply occursIn_cons
      exact occursIn_of_leadsWith hc.2
    · split at h
      · rename_i hc
        simp only [Bool.and_eq_true, beq_iff_eq] at hc
        apply occursIn_of_leadsWith
        simp [fenceMarker, leadsWith, hc.1, hc.2]
      · rcases hfc : findClose cs with _ | pr'
        · rw [hfc] at h; simp at h
        · exact occursIn_cons c (ih hfc)

theorem tryCode_two_marks {c : Char} {cs : List Char}
    {pr : List Char × List Char} (h : tryCode c cs = some pr) :
    2 ≤ startCount fenceMarker (c :: cs) := by
  simp only [tryCode] at h
  split at h
  · rename_i hc
    simp only [Bool.and_eq_true, beq_iff_eq] at hc
    have harg := findClose_some_occurs h
    have hr1 : occursIn fenceMarker
        ((cs.drop 2).dropWhile isWordChar) = true := by
      split at harg
      · exact occursIn_tail _ harg
      · exact harg
    have hcs : occursIn fenceMarker cs = true :=
      occursIn_drop 2 cs (occursIn_dropWhile isWordChar _ hr1)
    have h1 : 1 ≤ startCount fenceMarker cs := startCount_pos hcs
    have hlead : leadsWith fenceMarker (c :: cs) = true := by
      have : leadsWith fenceMarker (c :: cs) =
          (('`' == c) && leadsWith ['`', '`'] cs) := rfl
      rw [this, hc.1]
      simp [hc.2]
    simp only [startCount, hlead, if_pos]
    omega
  · simp at h

theorem scan_no_second_marker :
    ∀ (n : Nat) (s : List Char), s.length ≤ n →
      startCount fenceMarker s ≤ 1 →
      extractBlocks s = [] ∧ ∀ repl, replaceBlocks repl s = s := by
  intro n
  induction n with
  | zero =>
    intro s hn _
    have : s = [] := List.length_eq_zero.mp (Nat.le_zero.mp hn)
    subst this
    exact ⟨rfl, fun _ => rfl⟩
  | succ n ih =>
    intro s hn hcount
    cases s with
    | nil => exact ⟨rfl, fun _ => rfl⟩
    | cons c cs =>
      rcases h : tryCode c cs with _ | pr
      · have hcs : startCount fenceMarker cs ≤ 1 :=
          Nat.le_trans (startCount_cons_le fenceMarker c cs) hcount
        simp only [List.length_cons, Nat.succ_le_succ_iff] at hn
        obtain ⟨hex, hrep⟩ := ih cs hn hcs
        refine ⟨?_, ?_⟩
        · rw [extractBlocks_cons_none h, hex]
        · intro repl
          rw [replaceBlocks_cons_none repl h, hrep repl]
      · have h2m : 2 ≤ startCount fenceMarker (c :: cs) :=
          tryCode_two_marks h
        omega

/-- Claim C9: an input holding exactly one fence-marker occurrence — an
opening fence with no subsequent closing fence — produces no extracted
block, and `parse_code_generation` keeps the whole input (the content after
the unclosed marker included) as the trimmed explanation. -/
theorem C9_unclosed_fence_retained (a b : List Char)
    (h : startCount fenceMarker (a ++ fenceMarker ++ b) = 1) :
    extractBlocks (a ++ fenceMarker ++ b) = [] ∧
    (parse_code_generation (a ++ fenceMarker ++ b)).code = [] ∧
    (parse_code_generation (a ++ fenceMarker ++ b)).has_code = false ∧
    (parse_code_generation (a ++ fenceMarker ++ b)).explanation =
      pyStrip (a ++ fenceMarker ++ b) := by
  obtain ⟨hex, hrep⟩ := scan_no_second_marker
    (a ++ fenceMarker ++ b).length (a ++ fenceMarker ++ b)
    (Nat.le_refl _) (by omega)
  have hex' : extractBlocks (a ++ (fenceMarker ++ b)) = [] := by
    rw [← List.append_assoc]; exact hex
  have hrep' : replaceBlocks [] (a ++ (fenceMarker ++ b)) =
      a ++ (fenceMarker ++ b) := by
    rw [← List.append_assoc]; exact hrep []
  exact ⟨hex, by simp [parse_code_generation, hex', hrep']⟩

/-- Claim C9, witnessed on prose followed by a dangling fence marker. -/
theorem C9_witness :
    extractBlocks (toL "intro\n" ++ fenceMarker ++ toL "\ndangling tail") =
      [] ∧
    (parse_code_generation
      (toL "intro\n" ++ fenceMarker ++ toL "\ndangling tail")).code = [] ∧
    (parse_code_generation
      (toL "intro\n" ++ fenceMarker ++ toL "\ndangling tail")).has_code =
      false ∧
    (parse_code_generation
      (toL "intro\n" ++ fenceMarker ++ toL "\ndangling tail")).explanation =
      pyStrip (toL "intro\n" ++ fenceMarker ++ toL "\ndangling tail") :=
  C9_unclosed_fence_retained (toL "intro\n") (toL "\ndangling tail")
    (by decide)

/-! Section: Structure of `fixFences` -/

theorem tryFix_none_of_ne_bt {a : Char} (cs : List Char) (h : a ≠ '`') :
    tryFix a cs = none := by
  have : (a == '`') = false := by simp [h]
  simp [tryFix, this]

theorem fix_cons_ne {a : Char} {s : List Char} (h : a ≠ '`') :
    fixFences (a :: s) = a :: fixFences s :=
  fixFences_cons_none (tryFix_none_of_ne_bt s h)

theorem tryFix_some_inv {c : Char} {cs w rest : List Char}
    (h : tryFix c cs = some (w, rest)) :
    c = '`' ∧ leadsWith ['`', '`'] cs = true ∧
    w = (cs.drop 2).takeWhile isWordChar ∧ w ≠ [] ∧
    leadsWith ['\n', '\n'] ((cs.drop 2).dropWhile isWordChar) = true ∧
    rest = ((cs.drop 2).dropWhile isWordChar).dropWhile
      (fun a => a == '\n') := by
  simp only [tryFix] at h
  split at h
  · rename_i hc
    simp only [Bool.and_eq_true, beq_iff_eq] at hc
    split at h
    · simp at h
    · rename_i hw
      split at h
      · rename_i hnl
        injection h with h
        injection h with hw' hr'
        refine ⟨hc.1, hc.2, hw'.symm, ?_, hnl, hr'.symm⟩
        rw [← hw']
        intro e
        rw [e] at hw
        simp at hw
      · simp at h
  · simp at h

theorem word_ne_bt {a : Char} (h : isWordChar a = true) : a ≠ '`' := by
  intro e
  subst e
  exact absurd h (by decide)

theorem word_ne_nl {a : Char} (h : isWordChar a = true) : a ≠ '\n' := by
  intro e
  subst e
  exact absurd h (by decide)

theorem fix_head? : ∀ s : List Char, (fixFences s).head? = s.head? := by
  intro s
  cases s with
  | nil => rfl
  | cons c cs =>
    rcases h : tryFix c cs with _ | ⟨w, rest⟩
    · rw [fixFences_cons_none h]; rfl
    · rw [fixFences_cons_some h]
      have hc := (tryFix_some_inv h).1
      rw [hc]
      rfl

theorem twAll {p : Char → Bool} :
    ∀ {l : List Char}, (∀ a ∈ l, p a = true) → ∀ m : List Char,
      (l ++ m).takeWhile p = l ++ m.takeWhile p := by
  intro l
  induction l with
  | nil => intro _ m; simp
  | cons a l ih =>
    intro h m
    have ha : p a = true := h a (by simp)
    simp only [List.cons_append, List.takeWhile_cons_of_pos ha]
    rw [ih (fun b hb => h b (by simp [hb])) m]

theorem dwAll {p : Char → Bool} :
    ∀ {l : List Char}, (∀ a ∈ l, p a = true) → ∀ m : List Char,
      (l ++ m).dropWhile p = m.dropWhile p := by
  intro l
  induction l with
  | nil => intro _ m; simp
  | cons a l ih =>
    intro h m
    have ha : p a = true := h a (by simp)
    simp only [List.cons_append, List.dropWhile_cons_of_pos ha]
    exact ih (fun b hb => h b (by simp [hb])) m

theorem fix_word_run :
    ∀ {w0 : List Char}, (∀ a ∈ w0, isWordChar a = true) → ∀ s : List Char,
      fixFences (w0 ++ s) = w0 ++ fixFences s := by
  intro w0
  induction w0 with
  | nil => intro _ s; simp
  | cons a w ih =>
    intro h s
    have ha : isWordChar a = true := h a (by simp)
    simp only [List.cons_append]
    rw [fix_cons_ne (word_ne_bt ha), ih (fun b hb => h b (by simp [hb])) s]

theorem leadsWith_cons_inv {p : Char} {ps z : List Char}
    (h : leadsWith (p :: ps) z = true) :
    ∃ t, z = p :: t ∧ leadsWith ps t = true := by
  cases z with
  | nil => simp [leadsWith] at h
  | cons c cs =>
    simp only [leadsWith, Bool.and_eq_true, beq_iff_eq] at h
    exact ⟨cs, by rw [h.1], h.2⟩

theorem takeWhile_head_none {p : Char → Bool} {z : List Char}
    (h : ∀ x t, z = x :: t → p x = false) : z.takeWhile p = [] := by
  cases z with
  | nil => rfl
  | cons x t =>
    rw [List.takeWhile_cons_of_neg]
    simp [h x t rfl]

theorem dropWhile_head_id {p : Char → Bool} {z : List Char}
    (h : ∀ x t, z = x :: t → p x = false) : z.dropWhile p = z := by
  cases z with
  | nil => rfl
  | cons x t =>
    rw [List.dropWhile_cons_of_neg]
    simp [h x t rfl]

theorem isEmpty_false_of_ne_nil {w : List Char} (h : w ≠ []) :
    w.isEmpty = false := by
  cases w with
  | nil => exact absurd rfl h
  | cons a as => rfl


theorem tryFix_rep_none {w rest : List Char}
    (hwall : ∀ a ∈ w, isWordChar a = true)
    (hhead : ∀ x t, rest = x :: t → (x == '\n') = false) :
    tryFix '`' ('`' :: '`' :: (w ++ '\n' :: rest)) = none := by
  have htw : (w ++ '\n' :: rest).takeWhile isWordChar = w := by
    rw [twAll hwall, List.takeWhile_cons_of_neg (by decide)]
    simp
  have hdw : (w ++ '\n' :: rest).dropWhile isWordChar = '\n' :: rest := by
    rw [dwAll hwall, List.dropWhile_cons_of_neg (by decide)]
  have hfr : leadsWith ['\n', '\n'] ('\n' :: rest) = false := by
    cases hre : rest with
    | nil => simp [leadsWith]
    | cons x t =>
      have hx : (x == '\n') = false := hhead x t hre
      have hx' : ('\n' == x) = false := by
        simp only [beq_eq_false_iff_ne] at hx ⊢
        exact fun e => hx e.symm
      simp [leadsWith, hx']
  simp only [tryFix, List.drop_succ_cons, List.drop_zero]
  rw [show (('`' == '`') &&
      leadsWith ['`', '`'] ('`' :: '`' :: (w ++ '\n' :: rest))) = true by
    simp [leadsWith]]
  simp only [if_true, htw, hdw, hfr]
  split <;> simp

theorem headFixMatch_fix :
    ∀ (n : Nat) (s : List Char), s.length ≤ n →
      headFixMatch (fixFences s) = none := by
  intro n
  induction n with
  | zero =>
    intro s hn
    have : s = [] := List.length_eq_zero.mp (Nat.le_zero.mp hn)
    subst this
    rfl
  | succ n ih =>
    intro s hn
    cases s with
    | nil => rfl
    | cons c cs =>
      simp only [List.length_cons, Nat.succ_le_succ_iff] at hn
      rcases h : tryFix c cs with _ | ⟨w, rest⟩
      · -- no match at the head of the input
        rw [fixFences_cons_none h]
        show tryFix c (fixFences cs) = none
        rcases hsome : tryFix c (fixFences cs) with _ | ⟨w', rest'⟩
        · rfl
        exfalso
        obtain ⟨hc, h2, hw', hw'ne, hnl', -⟩ := tryFix_some_inv hsome
        subst hc
        obtain ⟨z1, hz1, h2'⟩ := leadsWith_cons_inv h2
        obtain ⟨z2, hz2, -⟩ := leadsWith_cons_inv h2'
        have hhead : cs.head? = some '`' := by
          rw [← fix_head? cs, hz1]; rfl
        cases cs with
        | nil => simp at hhead
        | cons c1 cs1 =>
        simp only [List.head?_cons, Option.some.injEq] at hhead
        subst hhead
        rcases h1 : tryFix '`' cs1 with _ | ⟨w1, rest1⟩
        · -- the scanner copied the first backtick
          have hfx : fixFences ('`' :: cs1) = '`' :: fixFences cs1 :=
            fixFences_cons_none h1
          have hz1' : fixFences cs1 = z1 := by
            rw [hfx] at hz1
            injection hz1
          have hhead1 : cs1.head? = some '`' := by
            rw [← fix_head? cs1, hz1', hz2]; rfl
          cases cs1 with
          | nil => simp at hhead1
          | cons c2 cs2 =>
          simp only [List.head?_cons, Option.some.injEq] at hhead1
          subst hhead1
          rcases h2x : tryFix '`' cs2 with _ | ⟨w2, rest2⟩
          · -- the scanner copied the second backtick as well
            have hfx1 : fixFences ('`' :: cs2) = '`' :: fixFences cs2 :=
              fixFences_cons_none h2x
            have hz2' : fixFences cs2 = z2 := by
              rw [hfx1] at hz1'
              rw [hz2] at hz1'
              injection hz1'
            have hw0all : ∀ a ∈ cs2.takeWhile isWordChar,
                isWordChar a = true := fun a ha => List.mem_takeWhile_imp ha
            have hsplit : cs2.takeWhile isWordChar ++
                cs2.dropWhile isWordChar = cs2 :=
              List.takeWhile_append_dropWhile isWordChar cs2
            have hfix2 : fixFences cs2 =
                cs2.takeWhile isWordChar ++
                  fixFences (cs2.dropWhile isWordChar) := by
              conv_lhs => rw [← hsplit]
              exact fix_word_run hw0all _
            have hfixr_head : ∀ x t,
                fixFences (cs2.dropWhile isWordChar) = x :: t →
                  isWordChar x = false := by
              intro x t hxt
              have hx : (cs2.dropWhile isWordChar).head? = some x := by
                rw [← fix_head? (cs2.dropWhile isWordChar), hxt]; rfl
              cases hr : cs2.dropWhile isWordChar with
              | nil => rw [hr] at hx; simp at hx
              | cons a b =>
                rw [hr] at hx
                simp only [List.head?_cons, Option.some.injEq] at hx
                rw [← hx]
                exact dropWhile_head_false hr
            have hdrop : (fixFences ('`' :: '`' :: cs2)).drop 2 =
                fixFences cs2 := by
              rw [hz1, hz2, hz2']; rfl
            have hw'w0 : w' = cs2.takeWhile isWordChar := by
              rw [hw', hdrop, hfix2, twAll hw0all]
              rw [takeWhile_head_none hfixr_head]
              simp
            have hw0ne : cs2.takeWhile isWordChar ≠ [] := by
              rw [← hw'w0]; exact hw'ne
            have hdw2 : ((fixFences ('`' :: '`' :: cs2)).drop 2).dropWhile
                isWordChar = fixFences (cs2.dropWhile isWordChar) := by
              rw [hdrop, hfix2, dwAll hw0all]
              exact dropWhile_head_id
                (fun x t hxt => by simp [hfixr_head x t hxt])
            rw [hdw2] at hnl'
            obtain ⟨t1, ht1, hl1⟩ := leadsWith_cons_inv hnl'
            have hrhead : (cs2.dropWhile isWordChar).head? = some '\n' := by
              rw [← fix_head? (cs2.dropWhile isWordChar), ht1]; rfl
            rcases hr : cs2.dropWhile isWordChar with _ | ⟨a, r2⟩
            · rw [hr] at hrhead; simp at hrhead
            rw [hr] at hrhead
            simp only [List.head?_cons, Option.some.injEq] at hrhead
            subst hrhead
            have hfr : fixFences (cs2.dropWhile isWordChar) =
                '\n' :: fixFences r2 := by
              rw [hr]; exact fix_cons_ne (by decide)
            rw [hfr] at ht1
            injection ht1 with _ ht1'
            obtain ⟨t2, ht2, -⟩ := leadsWith_cons_inv hl1
            have hr2head : r2.head? = some '\n' := by
              rw [← fix_head? r2, ht1', ht2]; rfl
            rcases hr2 : r2 with _ | ⟨b, r3⟩
            · rw [hr2] at hr2head; simp at hr2head
            rw [hr2] at hr2head
            simp only [List.head?_cons, Option.some.injEq] at hr2head
            subst hr2head
            rw [hr2] at hr
            simp only [tryFix] at h
            rw [show (('`' == '`') &&
                leadsWith ['`', '`'] ('`' :: '`' :: cs2)) = true by
              simp [leadsWith]] at h
            simp only [if_true] at h
            rw [show (('`' :: '`' :: cs2 : List Char).drop 2) = cs2 from rfl,
              isEmpty_false_of_ne_nil hw0ne, hr] at h
            simp [leadsWith] at h
          · -- the second unfolding step hit a match: the output continues
            -- with three backticks, so the word run w' is empty
            rw [fixFences_cons_some h2x] at hz1'
            rw [hz2] at hz1'
            injection hz1' with _ hz2'
            rw [hw'] at hw'ne
            apply hw'ne
            have hdrop : (fixFences ('`' :: '`' :: cs2)).drop 2 = z2 := by
              rw [hz1, hz2]; rfl
            rw [hdrop, ← hz2']
            exact takeWhile_head_none (by
              intro x t hxt
              injection hxt with hx _
              rw [← hx]
              decide)
        · -- the first unfolding step hit a match
          rw [fixFences_cons_some h1] at hz1
          injection hz1 with _ hz1'
          rw [hz2] at hz1'
          injection hz1' with _ hz2'
          rw [hw'] at hw'ne
          apply hw'ne
          have hdrop : (fixFences ('`' :: cs1)).drop 2 = z2 := by
            simp only [fixFences_cons_some h1, List.drop_succ_cons,
              List.drop_zero]
            exact hz2'
          rw [hdrop, ← hz2']
          exact takeWhile_head_none (by
            intro x t hxt
            injection hxt with hx _
            rw [← hx]
            decide)
      · -- a match at the head of the input
        rw [fixFences_cons_some h]
        obtain ⟨hc, h2, hw, hwne, hnl, hrest⟩ := tryFix_some_inv h
        show tryFix '`' ('`' :: '`' :: (w ++ '\n' :: fixFences rest)) = none
        apply tryFix_rep_none
        · rw [hw]; exact fun a ha => List.mem_takeWhile_imp ha
        · intro x t hxt
          have hx : (fixFences rest).head? = some x := by rw [hxt]; rfl
          rw [fix_head? rest] at hx
          cases hre : rest with
          | nil => rw [hre] at hx; simp at hx
          | cons a b =>
            rw [hre] at hx
            simp only [List.head?_cons, Option.some.injEq] at hx
            rw [← hx]
            rw [hrest] at hre
            exact @dropWhile_head_false (fun u => u == '\n') _ _ _ hre

theorem tryFix_none_cs_head {u : List Char}
    (h : ∀ x t, u = x :: t → x ≠ '`') : tryFix '`' u = none := by
  cases u with
  | nil => rfl
  | cons x t =>
    have hx : ('`' == x) = false := by
      simp only [beq_eq_false_iff_ne]
      exact fun e => h x t rfl e.symm
    simp [tryFix, leadsWith, hx]

theorem tryFix_none_second {u : List Char}
    (h : ∀ x t, u = x :: t → x ≠ '`') : tryFix '`' ('`' :: u) = none := by
  cases u with
  | nil => rfl
  | cons x t =>
    have hx : ('`' == x) = false := by
      simp only [beq_eq_false_iff_ne]
      exact fun e => h x t rfl e.symm
    simp [tryFix, leadsWith, hx]

theorem hasFix_cons (c : Char) (cs : List Char) :
    hasFix (c :: cs) = ((tryFix c cs).isSome || hasFix cs) := rfl

theorem hasFix_false_id :
    ∀ {s : List Char}, hasFix s = false → fixFences s = s := by
  intro s
  induction s with
  | nil => intro _; rfl
  | cons c cs ih =>
    intro h
    rw [hasFix_cons, Bool.or_eq_false_iff] at h
    have hnone : tryFix c cs = none := by
      cases ht : tryFix c cs
      · rfl
      · rw [ht] at h; simp at h
    rw [fixFences_cons_none hnone, ih h.2]

theorem hasFix_nonbt_append :
    ∀ {l : List Char}, (∀ a ∈ l, a ≠ '`') → ∀ z : List Char,
      hasFix (l ++ z) = hasFix z := by
  intro l
  induction l with
  | nil => intro _ z; rfl
  | cons a l ih =>
    intro h z
    have ha : a ≠ '`' := h a (by simp)
    rw [List.cons_append, hasFix_cons, tryFix_none_of_ne_bt _ ha]
    simp [ih (fun b hb => h b (by simp [hb])) z]

theorem hasFix_fix :
    ∀ (n : Nat) (s : List Char), s.length ≤ n →
      hasFix (fixFences s) = false := by
  intro n
  induction n with
  | zero =>
    intro s hn
    have : s = [] := List.length_eq_zero.mp (Nat.le_zero.mp hn)
    subst this
    rfl
  | succ n ih =>
    intro s hn
    cases s with
    | nil => rfl
    | cons c cs =>
      have hn' : cs.length ≤ n := by
        simpa [Nat.succ_le_succ_iff] using hn
      rcases h : tryFix c cs with _ | ⟨w, rest⟩
      · have h1 : tryFix c (fixFences cs) = none := by
          have h0 := headFixMatch_fix (n + 1) (c :: cs) hn
          rw [fixFences_cons_none h] at h0
          exact h0
        rw [fixFences_cons_none h, hasFix_cons, h1]
        simp [ih cs hn']
      · obtain ⟨hc, h2, hw, hwne, hnl, hrest⟩ := tryFix_some_inv h
        have hr : rest.length ≤ n := by
          have h5 : rest.length ≤ cs.length := tryFix_rest_le h
          have h6 : cs.length ≤ n := by
            simpa [Nat.succ_le_succ_iff] using hn
          omega
        have hwall : ∀ a ∈ w, isWordChar a = true := by
          rw [hw]; exact fun a ha => List.mem_takeWhile_imp ha
        have hA : tryFix '`' ('`' :: '`' :: (w ++ '\n' :: fixFences rest)) =
            none := by
          apply tryFix_rep_none hwall
          intro x t hxt
          have hx : (fixFences rest).head? = some x := by rw [hxt]; rfl
          rw [fix_head? rest] at hx
          cases hre : rest with
          | nil => rw [hre] at hx; simp at hx
          | cons a b =>
            rw [hre] at hx
            simp only [List.head?_cons, Option.some.injEq] at hx
            rw [← hx]
            rw [hrest] at hre
            exact @dropWhile_head_false (fun u => u == '\n') _ _ _ hre
        have hwhead : ∀ x t, w ++ '\n' :: fixFences rest = x :: t →
            x ≠ '`' := by
          intro x t hxt
          cases hwcase : w with
          | nil => exact absurd hwcase hwne
          | cons a w' =>
            rw [hwcase] at hxt
            injection hxt with hx _
            rw [← hx]
            exact word_ne_bt (hwall a (by simp [hwcase]))
        have hB : tryFix '`' ('`' :: (w ++ '\n' :: fixFences rest)) =
            none := tryFix_none_second hwhead
        have hC : tryFix '`' (w ++ '\n' :: fixFences rest) = none :=
          tryFix_none_cs_head hwhead
        have hD : hasFix (w ++ '\n' :: fixFences rest) = false := by
          rw [hasFix_nonbt_append
            (fun a ha => word_ne_bt (hwall a ha)) ('\n' :: fixFences rest)]
          rw [hasFix_cons, tryFix_none_of_ne_bt _ (by decide)]
          simp [ih rest hr]
        rw [fixFences_cons_some h, hasFix_cons, hasFix_cons, hasFix_cons,
          hA, hB, hC, hD]
        rfl

theorem fix_idem (s : List Char) :
    fixFences (fixFences s) = fixFences s :=
  hasFix_false_id (hasFix_fix s.length s (Nat.le_refl _))

/-! Section: The newline collapse -/

theorem occ_nl3_cons_ne {x : Char} (hx : x ≠ '\n') (z : List Char) :
    occursIn nl3 (x :: z) = occursIn nl3 z := by
  have hx' : ('\n' == x) = false := by
    simp only [beq_eq_false_iff_ne]
    exact fun e => hx e.symm
  simp [occursIn, nl3, leadsWith, hx']

theorem occ_nl3_nonnl_append :
    ∀ {l : List Char}, (∀ a ∈ l, a ≠ '\n') → ∀ z : List Char,
      occursIn nl3 (l ++ z) = occursIn nl3 z := by
  intro l
  induction l with
  | nil => intro _ z; rfl
  | cons a l ih =>
    intro h z
    rw [List.cons_append, occ_nl3_cons_ne (h a (by simp))]
    exact ih (fun b hb => h b (by simp [hb])) z

theorem occ_nl3_rep {m : Nat} (hm : m ≤ 2) :
    occursIn nl3 (List.replicate m '\n') = false := by
  interval_cases m <;> decide

theorem occ_nl3_rep_cons {m : Nat} (hm : m ≤ 2) {x : Char} (hx : x ≠ '\n')
    (z : List Char) :
    occursIn nl3 (List.replicate m '\n' ++ x :: z) = occursIn nl3 z := by
  have hx' : ('\n' == x) = false := by
    simp only [beq_eq_false_iff_ne]
    exact fun e => hx e.symm
  interval_cases m <;>
    simp [List.replicate, occursIn, nl3, leadsWith, hx']

theorem collapse_no_triple :
    ∀ (s : List Char) (k : Nat), occursIn nl3 (collapseAux k s) = false := by
  intro s
  induction s with
  | nil =>
    intro k
    simp only [collapseAux]
    exact occ_nl3_rep (Nat.min_le_right k 2)
  | cons c cs ih =>
    intro k
    by_cases hc : (c == '\n') = true
    · simp only [collapseAux, if_pos hc]
      exact ih (k + 1)
    · have hc' : c ≠ '\n' := by simpa using hc
      simp only [collapseAux, if_neg hc]
      rw [occ_nl3_rep_cons (Nat.min_le_right k 2) hc']
      exact ih 0

theorem collapse_id_aux :
    ∀ (s : List Char) (k : Nat), k ≤ 2 →
      occursIn nl3 (List.replicate k '\n' ++ s) = false →
      collapseAux k s = List.replicate k '\n' ++ s := by
  intro s
  induction s with
  | nil =>
    intro k hk _
    simp [collapseAux, Nat.min_eq_left hk]
  | cons c cs ih =>
    intro k hk h
    by_cases hc : (c == '\n') = true
    · have hc' : c = '\n' := by simpa using hc
      subst hc'
      have hk1 : k ≤ 1 := by
        by_contra hgt
        have hk2 : k = 2 := by omega
        subst hk2
        have htr : occursIn nl3 (List.replicate 2 '\n' ++ '\n' :: cs)
            = true := by
          apply occursIn_of_leadsWith
          simp [List.replicate, nl3, leadsWith]
        rw [htr] at h
        exact absurd h (by simp)
      have hrw : List.replicate k '\n' ++ '\n' :: cs =
          List.replicate (k + 1) '\n' ++ cs := by
        rw [List.replicate_succ' k '\n']
        simp
      simp only [collapseAux, if_pos hc]
      rw [hrw]
      apply ih (k + 1) (by omega)
      rw [← hrw]
      exact h
    · have hc' : c ≠ '\n' := by simpa using hc
      have h0 : occursIn nl3 cs = false := by
        cases hcs : occursIn nl3 cs
        · rfl
        · have : occursIn nl3 (List.replicate k '\n' ++ c :: cs) = true :=
            occursIn_append_right _ (occursIn_cons c hcs)
          rw [this] at h
          exact absurd h (by simp)
      simp only [collapseAux, if_neg hc]
      rw [Nat.min_eq_left hk]
      have : collapseAux 0 cs = cs := by
        have := ih 0 (by omega) (by simpa using h0)
        simpa using this
      rw [this]

theorem collapse_id {s : List Char} (h : occursIn nl3 s = false) :
    collapseNewlines s = s := by
  have := collapse_id_aux s 0 (by omega) (by simpa using h)
  simpa [collapseNewlines] using this

theorem fix_no_triple :
    ∀ (n : Nat) (s : List Char), s.length ≤ n →
      occursIn nl3 s = false → occursIn nl3 (fixFences s) = false := by
  intro n
  induction n with
  | zero =>
    intro s hn _
    have : s = [] := List.length_eq_zero.mp (Nat.le_zero.mp hn)
    subst this
    rfl
  | succ n ih =>
    intro s hn h
    cases s with
    | nil => rfl
    | cons c cs =>
      have hn' : cs.length ≤ n := by
        simpa [Nat.succ_le_succ_iff] using hn
      simp only [occursIn, Bool.or_eq_false_iff] at h
      obtain ⟨hlead, hcs⟩ := h
      rcases hf : tryFix c cs with _ | ⟨w, rest⟩
      · rw [fixFences_cons_none hf]
        simp only [occursIn, Bool.or_eq_false_iff]
        refine ⟨?_, ih cs hn' hcs⟩
        cases hl : leadsWith nl3 (c :: fixFences cs)
        · rfl
        exfalso
        rw [show nl3 = '\n' :: '\n' :: '\n' :: ([] : List Char) from rfl]
          at hl
        obtain ⟨t0, ht0, hl1⟩ := leadsWith_cons_inv hl
        injection ht0 with hc0 ht0'
        obtain ⟨t1, ht1, hl2⟩ := leadsWith_cons_inv hl1
        have hhead : cs.head? = some '\n' := by
          rw [← fix_head? cs, ht0', ht1]; rfl
        cases hcs0 : cs with
        | nil => rw [hcs0] at hhead; simp at hhead
        | cons a cs1 =>
          rw [hcs0] at hhead
          simp only [List.head?_cons, Option.some.injEq] at hhead
          subst hhead
          have hfx : fixFences cs = '\n' :: fixFences cs1 := by
            rw [hcs0]; exact fix_cons_ne (by decide)
          rw [hfx] at ht0'
          rw [← ht0'] at ht1
          injection ht1 with _ ht1'
          obtain ⟨t2, ht2, -⟩ := leadsWith_cons_inv hl2
          have hhead1 : cs1.head? = some '\n' := by
            rw [← fix_head? cs1, ht1', ht2]; rfl
          cases hcs1 : cs1 with
          | nil => rw [hcs1] at hhead1; simp at hhead1
          | cons b cs2 =>
            rw [hcs1] at hhead1
            simp only [List.head?_cons, Option.some.injEq] at hhead1
            subst hhead1
            rw [hc0, hcs0, hcs1] at hlead
            simp [nl3, leadsWith] at hlead
      · obtain ⟨hc, h2, hw, hwne, hnl, hrest⟩ := tryFix_some_inv hf
        have hwall : ∀ a ∈ w, isWordChar a = true := by
          rw [hw]; exact fun a ha => List.mem_takeWhile_imp ha
        have hrest_nt : occursIn nl3 rest = false := by
          cases hocc : occursIn nl3 rest
          · rfl
          exfalso
          have : occursIn nl3 cs = true := by
            apply occursIn_drop 2
            apply occursIn_dropWhile isWordChar
            apply occursIn_dropWhile (fun a => a == '\n')
            rw [← hrest]
            exact hocc
          rw [this] at hcs
          exact absurd hcs (by simp)
        have hr : rest.length ≤ n := by
          have h5 : rest.length ≤ cs.length := tryFix_rest_le hf
          omega
        rw [fixFences_cons_some hf]
        rw [occ_nl3_cons_ne (by decide), occ_nl3_cons_ne (by decide),
          occ_nl3_cons_ne (by decide),
          occ_nl3_nonnl_append (fun a ha => word_ne_nl (hwall a ha))]
        simp only [occursIn, Bool.or_eq_false_iff]
        refine ⟨?_, ih rest hr hrest_nt⟩
        cases hl : leadsWith nl3 ('\n' :: fixFences rest)
        · rfl
        exfalso
        rw [show nl3 = '\n' :: '\n' :: '\n' :: ([] : List Char) from rfl]
          at hl
        obtain ⟨t0, ht0, hl1⟩ := leadsWith_cons_inv hl
        injection ht0 with _ ht0'
        obtain ⟨t1, ht1, -⟩ := leadsWith_cons_inv hl1
        have hhead : rest.head? = some '\n' := by
          rw [← fix_head? rest, ht0', ht1]; rfl
        cases hre : rest with
        | nil => rw [hre] at hhead; simp at hhead
        | cons x t =>
          rw [hre] at hhead
          simp only [List.head?_cons, Option.some.injEq] at hhead
          rw [hrest] at hre
          have := @dropWhile_head_false (fun u => u == '\n') _ _ _ hre
          rw [hhead] at this
          simp at this

/-! Section: Stripping -/

theorem trimEnd_id_of_last :
    ∀ {z : List Char} {d : Char}, z.getLast? = some d →
      isPyWs d = false → trimEndW z = z := by
  intro z
  induction z with
  | nil => intro d h _; simp at h
  | cons c cs ih =>
    intro d h hws
    cases cs with
    | nil =>
      simp only [List.getLast?_singleton, Option.some.injEq] at h
      subst h
      simp [trimEndW, hws]
    | cons e es =>
      rw [List.getLast?_cons_cons] at h
      have ih' := ih h hws
      have step : trimEndW (c :: e :: es) =
          match trimEndW (e :: es) with
          | [] => if isPyWs c then [] else [c]
          | d :: r => c :: d :: r := rfl
      rw [step, ih']

theorem trimEndW_getLast :
    ∀ {z : List Char} {d : Char}, (trimEndW z).getLast? = some d →
      isPyWs d = false := by
  intro z
  induction z with
  | nil => intro d h; simp [trimEndW] at h
  | cons c cs ih =>
    intro d h
    cases hcs : trimEndW cs with
    | nil =>
      simp only [trimEndW, hcs] at h
      by_cases hc : isPyWs c = true
      · rw [if_pos hc] at h; simp at h
      · rw [if_neg hc] at h
        simp only [List.getLast?_singleton, Option.some.injEq] at h
        subst h
        simpa using hc
    | cons e r =>
      simp only [trimEndW, hcs] at h
      rw [List.getLast?_cons_cons, ← hcs] at h
      exact ih h

theorem trimEndW_head? {z x : List Char} {c : Char} (h : trimEndW z = c :: x) :
    z.head? = some c := by
  obtain ⟨m, hm⟩ := trimEndW_pre z
  rw [hm, h]
  rfl

theorem pyStrip_idem (s : List Char) : pyStrip (pyStrip s) = pyStrip s := by
  cases h : trimEndW (trimStartW s) with
  | nil =>
    have h0 : pyStrip s = [] := h
    rw [h0]
    rfl
  | cons x xs =>
    have h0 : pyStrip s = x :: xs := h
    have hu : (trimStartW s).head? = some x := trimEndW_head? h
    have hwx : isPyWs x = false := by
      cases hus : trimStartW s with
      | nil => rw [hus] at hu; simp at hu
      | cons a u' =>
        rw [hus] at hu
        simp only [List.head?_cons, Option.some.injEq] at hu
        rw [← hu]
        exact dropWhile_head_false hus
    obtain ⟨d, hgl⟩ : ∃ d, (x :: xs).getLast? = some d := by
      cases hg : (x :: xs).getLast? with
      | none =>
        exfalso
        have := List.getLast?_isSome.mpr (List.cons_ne_nil x xs)
        rw [hg] at this
        simp at this
      | some d => exact ⟨d, rfl⟩
    have hwd : isPyWs d = false := trimEndW_getLast (by rw [h]; exact hgl)
    have h1 : trimStartW (x :: xs) = x :: xs := by
      simp only [trimStartW]
      rw [List.dropWhile_cons_of_neg (by simp [hwx])]
    have h2 : trimEndW (x :: xs) = x :: xs := trimEnd_id_of_last hgl hwd
    rw [h0]
    show trimEndW (trimStartW (x :: xs)) = x :: xs
    rw [h1, h2]

theorem fix_getLast :
    ∀ (n : Nat) (s : List Char) {d : Char}, s.length ≤ n →
      s.getLast? = some d → isPyWs d = false →
      (fixFences s).getLast? = some d := by
  intro n
  induction n with
  | zero =>
    intro s d hn h _
    have : s = [] := List.length_eq_zero.mp (Nat.le_zero.mp hn)
    subst this
    simp at h
  | succ n ih =>
    intro s d hn h hws
    cases s with
    | nil => simp at h
    | cons c cs =>
      have hn' : cs.length ≤ n := by
        simpa [Nat.succ_le_succ_iff] using hn
      rcases hf : tryFix c cs with _ | ⟨w, rest⟩
      · rw [fixFences_cons_none hf]
        cases cs with
        | nil =>
          simp only [List.getLast?_singleton, Option.some.injEq] at h
          subst h
          show ((c : Char) :: fixFences []).getLast? = some c
          rfl
        | cons e es =>
          rw [List.getLast?_cons_cons] at h
          have ihr := ih (e :: es) hn' h hws
          cases hfc : fixFences (e :: es) with
          | nil => rw [hfc] at ihr; simp at ihr
          | cons y ys =>
            rw [hfc] at ihr
            rw [List.getLast?_cons_cons]
            exact ihr
      · obtain ⟨hc, h2, hw, hwne, hnl, hrest⟩ := tryFix_some_inv hf
        subst hc
        obtain ⟨z1, hz1, h2'⟩ := leadsWith_cons_inv h2
        obtain ⟨cs2, hz2, -⟩ := leadsWith_cons_inv h2'
        subst hz2
        subst hz1
        have hdrop2 : (('`' :: '`' :: cs2 : List Char)).drop 2 = cs2 := rfl
        rw [hdrop2] at hw hnl hrest
        have hsplit1 : cs2.takeWhile isWordChar ++
            cs2.dropWhile isWordChar = cs2 :=
          List.takeWhile_append_dropWhile isWordChar cs2
        have hsplit2 : (cs2.dropWhile isWordChar).takeWhile
              (fun a => a == '\n') ++ rest = cs2.dropWhile isWordChar := by
          rw [hrest]
          exact List.takeWhile_append_dropWhile _ _
        rcases hrc : rest with _ | ⟨x, t⟩
        · exfalso
          have hr1ne : cs2.dropWhile isWordChar ≠ [] := by
            intro e
            rw [e] at hnl
            simp [leadsWith] at hnl
          have hall : ∀ a ∈ cs2.dropWhile isWordChar, (a == '\n') = true := by
            intro a ha
            rw [hrc] at hsplit2
            simp only [List.append_nil] at hsplit2
            rw [← hsplit2] at ha
            have h9 := List.mem_takeWhile_imp ha
            simpa using h9
          have hsd : ('`' :: '`' :: '`' :: cs2 : List Char).getLast? =
              (cs2.dropWhile isWordChar).getLast? := by
            conv_lhs => rw [← hsplit1]
            rw [show ('`' :: '`' :: '`' ::
                (cs2.takeWhile isWordChar ++ cs2.dropWhile isWordChar)
                : List Char) =
              ('`' :: '`' :: '`' :: cs2.takeWhile isWordChar) ++
                cs2.dropWhile isWordChar by simp]
            exact List.getLast?_append_of_ne_nil _ hr1ne
          rw [hsd] at h
          have hd : d ∈ cs2.dropWhile isWordChar :=
            List.mem_of_mem_getLast? (by rw [h]; rfl)
          have := hall d hd
          simp only [beq_iff_eq] at this
          subst this
          simp [isPyWs] at hws
        · have hrne : rest ≠ [] := by rw [hrc]; simp
          have hsd : ('`' :: '`' :: '`' :: cs2 : List Char).getLast? =
              rest.getLast? := by
            conv_lhs => rw [← hsplit1, ← hsplit2]
            rw [show ('`' :: '`' :: '`' ::
                (cs2.takeWhile isWordChar ++
                  ((cs2.dropWhile isWordChar).takeWhile
                    (fun a => a == '\n') ++ rest)) : List Char) =
              ('`' :: '`' :: '`' :: (cs2.takeWhile isWordChar ++
                (cs2.dropWhile isWordChar).takeWhile
                  (fun a => a == '\n'))) ++ rest by simp]
            exact List.getLast?_append_of_ne_nil _ hrne
          rw [hsd] at h
          have hlen : rest.length ≤ n := by
            have h5 : rest.length ≤ ('`' :: '`' :: cs2 : List Char).length :=
              tryFix_rest_le hf
            simp only [List.length_cons] at h5 hn
            omega
          have ihr := ih rest hlen h hws
          have hfne : fixFences rest ≠ [] := by
            intro e
            rw [e] at ihr
            simp at ihr
          rw [fixFences_cons_some hf]
          rw [show ('`' :: '`' :: '`' :: (w ++ '\n' :: fixFences rest)
              : List Char) =
            ('`' :: '`' :: '`' :: (w ++ ['\n'])) ++ fixFences rest by simp]
          rw [List.getLast?_append_of_ne_nil _ hfne]
          exact ihr

theorem pyStrip_fix {y : List Char} (h : pyStrip y = y) :
    pyStrip (fixFences y) = fixFences y := by
  cases y with
  | nil => rfl
  | cons c cs =>
    have h' : trimEndW (trimStartW (c :: cs)) = c :: cs := h
    have hhead : isPyWs c = false := by
      have hu := trimEndW_head? h'
      cases hus : trimStartW (c :: cs) with
      | nil => rw [hus] at hu; simp at hu
      | cons a u' =>
        rw [hus] at hu
        simp only [List.head?_cons, Option.some.injEq] at hu
        rw [← hu]
        exact dropWhile_head_false hus
    obtain ⟨d, hgl⟩ : ∃ d, (c :: cs).getLast? = some d := by
      cases hg : (c :: cs).getLast? with
      | none =>
        exfalso
        have := List.getLast?_isSome.mpr (List.cons_ne_nil c cs)
        rw [hg] at this
        simp at this
      | some d => exact ⟨d, rfl⟩
    have hwd : isPyWs d = false :=
      trimEndW_getLast (show (trimEndW (trimStartW (c :: cs))).getLast? =
        some d by rw [h']; exact hgl)
    have hfgl := fix_getLast (c :: cs).length (c :: cs) (Nat.le_refl _)
      hgl hwd
    have hfh : (fixFences (c :: cs)).head? = some c := by
      rw [fix_head?]; rfl
    cases hfix : fixFences (c :: cs) with
    | nil => rw [hfix] at hfh; simp at hfh
    | cons x xs =>
      rw [hfix] at hfh hfgl
      simp only [List.head?_cons, Option.some.injEq] at hfh
      subst hfh
      show trimEndW (trimStartW (x :: xs)) = x :: xs
      rw [show trimStartW (x :: xs) = x :: xs by
        simp only [trimStartW]
        rw [List.dropWhile_cons_of_neg (by simp [hhead])]]
      exact trimEnd_id_of_last hfgl hwd

theorem clean_no_triple (s : List Char) :
    occursIn nl3 (clean_response s) = false := by
  have hT1 : occursIn nl3 (pyStrip (collapseNewlines s)) = false := by
    cases hx : occursIn nl3 (pyStrip (collapseNewlines s))
    · rfl
    · exfalso
      have h0 := occursIn_pyStrip (collapseNewlines s) hx
      have h1 : occursIn nl3 (collapseNewlines s) = false :=
        collapse_no_triple s 0
      rw [h0] at h1
      exact absurd h1 (by simp)
  show occursIn nl3
    (fixFences (pyStrip (collapseNewlines s))) = false
  exact fix_no_triple _ _ (Nat.le_refl _) hT1

/-- Claim C7: `clean_response` is idempotent. -/
theorem C7_clean_response_idempotent (s : List Char) :
    clean_response (clean_response s) = clean_response s := by
  have hT : occursIn nl3 (clean_response s) = false := clean_no_triple s
  have h1 : collapseNewlines (clean_response s) = clean_response s :=
    collapse_id hT
  have h2 : pyStrip (clean_response s) = clean_response s := by
    show pyStrip (fixFences (pyStrip (collapseNewlines s))) =
      fixFences (pyStrip (collapseNewlines s))
    exact pyStrip_fix (pyStrip_idem (collapseNewlines s))
  calc clean_response (clean_response s)
      = fixFences (pyStrip (collapseNewlines (clean_response s))) := rfl
    _ = fixFences (pyStrip (clean_response s)) := by rw [h1]
    _ = fixFences (clean_response s) := by rw [h2]
    _ = fixFences (fixFences (pyStrip (collapseNewlines s))) := rfl
    _ = fixFences (pyStrip (collapseNewlines s)) := fix_idem _
    _ = clean_response s := rfl

/-- Claim C8 fails as stated: after `clean_response`, a blank line that
follows a bare opening fence (no language tag) survives — the fence-fix
pattern requires at least one word character after the backticks. -/
theorem C8_counterexample :
    clean_response (toL "a\n```\n\nb") = toL "a\n```\n\nb" ∧
    occursIn (toL "```\n\n") (clean_response (toL "a\n```\n\nb")) = true := by
  decide

/-- Claim C8 (amended): `clean_response` removes the blank lines that
immediately follow an opening fence marker carrying a language tag — in the
output the fence-fix pattern (three backticks, a word run, two or more
newlines) matches nowhere — and it collapses every run of three or more
newlines, so none remains in the output; blank lines after a bare fence
marker are not removed beyond that collapse. -/
theorem C8_clean_fence_normalization (s : List Char) :
    hasFix (clean_response s) = false ∧
    occursIn nl3 (clean_response s) = false := by
  refine ⟨?_, clean_no_triple s⟩
  show hasFix (fixFences (pyStrip (collapseNewlines s))) = false
  exact hasFix_fix _ _ (Nat.le_refl _)
